import Mathlib

/-!
Verification of the function-aware diff tool (Python variant).

Shallow embedding of:
  - src/diff_parser.py            (hunk parsing: `_parse_hunks`)
  - src/python_function_detector.py (AST walk: `detect_functions` and helpers)
  - src/function_aware_diff.py    (combiner: `_map_hunks_to_functions` and helpers)

Python strings are Lean `String`; the Python string methods used by the code
are embedded as executable functions over the underlying character list.
Python `set` objects holding integers are embedded as duplicate-free Lean
lists built with `List.insert` (set add), `List.union` (set update / union)
and `List.filter` (set intersection); `sorted(list(s))` is embedded as
`List.insertionSort`, and the stable `list.sort(key=...)` of the detector is
likewise embedded as a stable insertion sort.
-/

/-! ## Python string primitives -/

/-- Python `s.startswith(p)`. -/
def pyStartsWith (s p : String) : Bool := p.data.isPrefixOf s.data

/-- Python `s.endswith(p)`. -/
def pyEndsWith (s p : String) : Bool := p.data.isSuffixOf s.data

/-- Python `s.strip()` (whitespace characters as recognised by `Char.isWhitespace`). -/
def pyStrip (s : String) : String :=
  String.mk (((s.data.dropWhile Char.isWhitespace).reverse.dropWhile Char.isWhitespace).reverse)

/-- Python `s[n:]`. -/
def pyDrop (s : String) (n : Nat) : String := String.mk (s.data.drop n)

/-- Python `c in s` for a single character. -/
def pyContainsChar (s : String) (c : Char) : Bool := s.data.contains c

/-- Python `s.split(c)[0]`: the part of `s` before the first occurrence of `c`. -/
def pySplitHead (s : String) (c : Char) : String :=
  String.mk (s.data.takeWhile (fun d => d ≠ c))

/-- Helper for `pySplitLines`: split a character list at newline characters. -/
def pySplitLinesAux : List Char → List Char → List (List Char)
  | [], acc => [acc.reverse]
  | c :: cs, acc =>
    if c = '\n' then acc.reverse :: pySplitLinesAux cs []
    else pySplitLinesAux cs (c :: acc)

/-- Python `s.split(chr(10))`, as used on file content (always non-empty). -/
def pySplitLines (s : String) : List String := (pySplitLinesAux s.data []).map String.mk

/-! ## Diff parser (src/diff_parser.py) -/

/-- `DiffHunk` dataclass (src/diff_parser.py lines 20-27). -/
structure DiffHunk where
  old_start : Nat
  old_count : Nat
  new_start : Nat
  new_count : Nat
  lines : List String
deriving DecidableEq

/-- Strip an expected literal character sequence; `none` when it does not match. -/
def stripLit : List Char → List Char → Option (List Char)
  | [], cs => some cs
  | _ :: _, [] => none
  | p :: ps, c :: cs => if c = p then stripLit ps cs else none

/-- Numeric value of an ASCII digit run, as `int()` computes it. -/
def digitsToNat (ds : List Char) : Nat := ds.foldl (fun n c => 10 * n + (c.toNat - 48)) 0

/-- Greedy `(\d+)`: one or more digits, returning the value and the rest. -/
def readNat (cs : List Char) : Option (Nat × List Char) :=
  let ds := cs.takeWhile Char.isDigit
  if ds.isEmpty then none else some (digitsToNat ds, cs.dropWhile Char.isDigit)

/-- Optional group `(?:,(\d+))?` followed by the defaulting
`int(...) if ... else 1` of `_parse_hunks`: a comma-digit run is consumed when
present, and the count defaults to 1 otherwise.  Because the character after
the group in the pattern is a space, the greedy deterministic reading agrees
with the backtracking regex. -/
def readOptCount : List Char → Nat × List Char
  | ',' :: rest =>
    (match readNat rest with
     | some (n, rest2) => (n, rest2)
     | none => (1, ',' :: rest))
  | cs => (1, cs)

/-- The hunk header pattern of src/diff_parser.py line 111,
`re.match(r'^@@ -(\d+)(?:,(\d+))? \+(\d+)(?:,(\d+))? @@', line)`, combined
with the count defaulting of lines 117 and 119.  `re.match` anchors at the
start only, so trailing text after the closing `@@` is accepted. -/
def matchHunkHeader (line : String) : Option (Nat × Nat × Nat × Nat) :=
  match stripLit "@@ -".data line.data with
  | none => none
  | some cs1 =>
    match readNat cs1 with
    | none => none
    | some (old_start, cs2) =>
      let oc := readOptCount cs2
      match stripLit " +".data oc.2 with
      | none => none
      | some cs3 =>
        match readNat cs3 with
        | none => none
        | some (new_start, cs4) =>
          let nc := readOptCount cs4
          match stripLit " @@".data nc.2 with
          | none => none
          | some _ => some (old_start, oc.1, new_start, nc.1)

/-- One iteration of the `for line in lines` loop of `_parse_hunks`
(src/diff_parser.py lines 108-129).  State: hunks emitted so far and the
currently open hunk, if any. -/
def parseHunksStep (state : List DiffHunk × Option DiffHunk) (line : String) :
    List DiffHunk × Option DiffHunk :=
  if pyStartsWith line "@@" then
    match matchHunkHeader line with
    | some (old_start, old_count, new_start, new_count) =>
      ((match state.2 with
        | some h => state.1 ++ [h]
        | none => state.1),
       some ⟨old_start, old_count, new_start, new_count, []⟩)
    | none => state
  else
    match state.2 with
    | some h => (state.1, some { h with lines := h.lines ++ [line] })
    | none => state

/-- `_parse_hunks` (src/diff_parser.py lines 103-134). -/
def _parse_hunks (lines : List String) : List DiffHunk :=
  let state := lines.foldl parseHunksStep ([], none)
  match state.2 with
  | some h => state.1 ++ [h]
  | none => state.1

/-! ## Python function detector data model (src/python_function_detector.py) -/

/-- `PythonFunction` dataclass (src/python_function_detector.py lines 9-24);
`__post_init__` replaces a missing decorator list by `[]`, so the embedded
field is a plain list. -/
structure PythonFunction where
  name : String
  start_line : Nat
  end_line : Nat
  start_byte : Nat
  end_byte : Nat
  class_name : Option String := none
  is_method : Bool := false
  is_async : Bool := false
  decorator_names : List String := []
deriving DecidableEq

/-- A decorator expression as classified by `_extract_decorator_name`
(src/python_function_detector.py lines 152-179): a bare name, an attribute
access (only the attribute matters), a call of a name, a call of an
attribute access, or any other expression. -/
inductive PyDecorator where
  | nameDec (id : String)
  | attributeDec (attr : String)
  | callName (id : String)
  | callAttribute (attr : String)
  | otherDec
deriving DecidableEq

/-- `_extract_decorator_name` (src/python_function_detector.py lines 152-179):
the three attribute names setter, getter and deleter normalise to
`property`; other expressions yield `None`. -/
def _extract_decorator_name : PyDecorator → Option String
  | .nameDec id => some id
  | .attributeDec attr =>
    if attr = "setter" then some "property"
    else if attr = "getter" then some "property"
    else if attr = "deleter" then some "property"
    else some attr
  | .callName id => some id
  | .callAttribute attr =>
    if attr = "setter" ∨ attr = "getter" ∨ attr = "deleter" then some "property"
    else some attr
  | .otherDec => none

/-- A CPython AST node, restricted to the shape the detector inspects.
`compound` stands for the node classes If, For, While, With and Try, which
`_calculate_end_line` treats identically; `ret` is a Return statement with a
flag for the presence of a value; `other` is any other statement or
expression node with child statements.  Line numbers are the 1-based
`lineno`/`end_lineno` attributes; `end_lineno` is optional because the code
guards it with `hasattr`/`is not None`. -/
inductive PyNode where
  | module (body : List PyNode)
  | classDef (name : String) (lineno : Nat) (endLineno : Option Nat) (body : List PyNode)
  | funcDef (name : String) (isAsync : Bool) (decorator_list : List PyDecorator)
      (lineno : Nat) (endLineno : Option Nat) (body : List PyNode)
  | compound (lineno : Nat) (endLineno : Option Nat) (body : List PyNode)
  | ret (lineno : Nat) (endLineno : Option Nat) (hasValue : Bool)
  | other (lineno : Nat) (endLineno : Option Nat) (body : List PyNode)

/-- The `lineno` attribute (modules never occur as statements; 1 is a dummy). -/
def PyNode.lineno : PyNode → Nat
  | .module _ => 1
  | .classDef _ l _ _ => l
  | .funcDef _ _ _ l _ _ => l
  | .compound l _ _ => l
  | .ret l _ _ => l
  | .other l _ _ => l

/-- The optional `end_lineno` attribute. -/
def PyNode.endLineno : PyNode → Option Nat
  | .module _ => none
  | .classDef _ _ e _ => e
  | .funcDef _ _ _ _ e _ => e
  | .compound _ e _ => e
  | .ret _ e _ => e
  | .other _ e _ => e

/-- The scan over up to three source lines performed for a multiline return
value (src/python_function_detector.py lines 136-145): starting from the
line number of the return statement, the first of the next at most three
lines whose stripped text ends with a closing bracket becomes the end line. -/
def returnScan (source : String) (end_line : Nat) : Nat :=
  let source_lines := pySplitLines source
  if end_line ≤ source_lines.length then
    match (List.range' end_line (min (end_line + 3) source_lines.length - end_line)).find?
        (fun i =>
          let line := pyStrip (((source_lines.get? (i - 1)).getD ""))
          pyEndsWith line ")" || pyEndsWith line "]" || pyEndsWith line "\x7d") with
    | some i => i
    | none => end_line
  else end_line

/-- `_calculate_end_line` (src/python_function_detector.py lines 114-150).
Only ever called on function definition nodes; 0 on other nodes. -/
def _calculate_end_line (node : PyNode) (source : String) : Nat :=
  match node with
  | .funcDef _ _ _ lineno endLn body =>
    match endLn with
    | some e => e
    | none =>
      match body.getLast? with
      | none => lineno
      | some last_stmt =>
        match last_stmt.endLineno with
        | some e => e
        | none =>
          let end_line := last_stmt.lineno
          match last_stmt with
          | .compound _ _ _ => end_line + 1
          | .ret _ _ true => returnScan source end_line
          | _ => end_line
  | _ => 0

/-- `_extract_function_info` (src/python_function_detector.py lines 84-112);
`none` on nodes that are not function definitions. -/
def _extract_function_info (node : PyNode) (source : String) (class_name : Option String) :
    Option PythonFunction :=
  match node with
  | .funcDef function_name is_async decorator_list _ _ _ =>
    some { name := function_name,
           start_line := node.lineno,
           end_line := _calculate_end_line node source,
           start_byte := 0,
           end_byte := 0,
           class_name := class_name,
           is_method := class_name.isSome,
           is_async := is_async,
           decorator_names := decorator_list.filterMap _extract_decorator_name }
  | _ => none

mutual

/-- `_traverse_node` (src/python_function_detector.py lines 55-82), returning
the appended function list instead of mutating an accumulator.  A class body
is walked with that class as owner; a function body is walked with owner
`None` and `inside_function = True`; all other nodes keep the context. -/
def _traverse_node (source : String) (node : PyNode) (class_name : Option String)
    (inside_function : Bool) : List PythonFunction :=
  match node with
  | .module body => traverseChildren source body class_name inside_function
  | .classDef current_class_name _ _ body =>
    traverseChildren source body (some current_class_name) inside_function
  | .funcDef n a dl l e body =>
    (match _extract_function_info (.funcDef n a dl l e body) source class_name with
     | some function => [function]
     | none => []) ++ traverseChildren source body none true
  | .compound _ _ body => traverseChildren source body class_name inside_function
  | .other _ _ body => traverseChildren source body class_name inside_function
  | .ret _ _ _ => []

/-- The `for child in ast.iter_child_nodes(node)` loops of `_traverse_node`. -/
def traverseChildren (source : String) (body : List PyNode) (class_name : Option String)
    (inside_function : Bool) : List PythonFunction :=
  match body with
  | [] => []
  | child :: rest =>
    _traverse_node source child class_name inside_function ++
      traverseChildren source rest class_name inside_function

end

/-- The body of `detect_functions` after a successful parse
(src/python_function_detector.py lines 48-53): walk the tree, then sort by
start line with the stable `list.sort`. -/
def detect_ast (tree : PyNode) (file_content : String) : List PythonFunction :=
  List.insertionSort (fun f g => f.start_line ≤ g.start_line)
    (_traverse_node file_content tree none false)

/-- `detect_functions` (src/python_function_detector.py lines 33-53).  The
external `ast.parse` is abstracted as a function returning `none` on a parse
failure (the SyntaxError caught at lines 43-46). -/
def detect_functions (parse : String → Option PyNode) (file_content : String) :
    List PythonFunction :=
  match parse file_content with
  | none => []
  | some tree => detect_ast tree file_content

/-! ## Function-aware diff combiner (src/function_aware_diff.py) -/

/-- `FunctionChange` dataclass (src/function_aware_diff.py lines 11-16). -/
structure FunctionChange where
  function : PythonFunction
  change_type : String
  affected_lines : List Nat
deriving DecidableEq

/-- The line walk of `_extract_changed_lines_detailed`
(src/function_aware_diff.py lines 155-183): two counters seeded at
`new_start`/`old_start`; a `+` line records the current new line as added; a
`-` line records the current old line as removed; a space line records the
current new line as a context line; any other line advances both counters
without recording. -/
def extractWalk : List String → Nat → Nat → List Nat × List Nat × List Nat
  | [], _, _ => ([], [], [])
  | line :: rest, current_new_line, current_old_line =>
    if pyStartsWith line "+" then
      let s := extractWalk rest (current_new_line + 1) current_old_line
      (s.1.insert current_new_line, s.2.1, s.2.2)
    else if pyStartsWith line "-" then
      let s := extractWalk rest current_new_line (current_old_line + 1)
      (s.1, s.2.1.insert current_old_line, s.2.2)
    else if pyStartsWith line " " then
      let s := extractWalk rest (current_new_line + 1) (current_old_line + 1)
      (s.1, s.2.1, s.2.2.insert current_new_line)
    else
      extractWalk rest (current_new_line + 1) (current_old_line + 1)

/-- `_extract_changed_lines_detailed` (src/function_aware_diff.py lines
155-183): the triple (added set, removed set, context set). -/
def _extract_changed_lines_detailed (hunk : DiffHunk) : List Nat × List Nat × List Nat :=
  extractWalk hunk.lines hunk.new_start hunk.old_start

/-- The accumulation of `all_added_lines` / `all_removed_lines` /
`all_modified_lines` over all hunks (src/function_aware_diff.py lines
93-101); `set.update` is set union. -/
def allChangedLines (hunks : List DiffHunk) : List Nat × List Nat × List Nat :=
  hunks.foldl
    (fun acc hunk =>
      let s := _extract_changed_lines_detailed hunk
      (acc.1 ∪ s.1, acc.2.1 ∪ s.2.1, acc.2.2 ∪ s.2.2))
    ([], [], [])

/-- `_determine_change_type_advanced` (src/function_aware_diff.py lines
185-211).  The arguments are the per-function intersections computed by the
caller; `file_content` is accepted and unused, as in the source. -/
def _determine_change_type_advanced (function : PythonFunction)
    (added_lines removed_lines modified_lines : List Nat) (file_content : String) : String :=
  if function.start_line ∈ added_lines then "added"
  else if ¬removed_lines.isEmpty ∧ added_lines.isEmpty ∧ modified_lines.isEmpty then "deleted"
  else if ¬added_lines.isEmpty ∨ ¬removed_lines.isEmpty then "modified"
  else if ¬modified_lines.isEmpty then "modified"
  else "modified"

/-- The added-content walk of `_detect_new_functions_in_hunk`
(src/function_aware_diff.py lines 218-228): pairs of new line number and
content for `+` lines; space lines advance the counter; removed and other
lines do not advance it. -/
def addedContentWalk : List String → Nat → List (Nat × String)
  | [], _ => []
  | line :: rest, current_line =>
    if pyStartsWith line "+" then
      (current_line, pyDrop line 1) :: addedContentWalk rest (current_line + 1)
    else if pyStartsWith line " " then addedContentWalk rest (current_line + 1)
    else addedContentWalk rest current_line

/-- `_detect_new_functions_in_hunk` (src/function_aware_diff.py lines
213-274).  The name-extraction `try` block cannot fail (string slicing and
split never raise), so it is embedded directly. -/
def _detect_new_functions_in_hunk (hunk : DiffHunk) (existing_functions : List PythonFunction) :
    List PythonFunction :=
  (addedContentWalk hunk.lines hunk.new_start).filterMap
    (fun p =>
      let line_num := p.1
      let stripped := pyStrip p.2
      if (pyStartsWith stripped "def " || pyStartsWith stripped "async def ") &&
          pyContainsChar stripped ':' then
        if existing_functions.any
            (fun f => decide (f.start_line ≤ line_num) && decide (line_num ≤ f.end_line)) then
          none
        else
          let func_part :=
            if pyStartsWith stripped "async def " then pyDrop stripped 10 else pyDrop stripped 4
          let func_name := pyStrip (pySplitHead func_part '(')
          some { name := func_name,
                 start_line := line_num,
                 end_line := line_num + 3,
                 start_byte := 0,
                 end_byte := 0,
                 class_name := none,
                 is_method := false,
                 is_async := pyStartsWith stripped "async def ",
                 decorator_names := [] }
      else none)

/-- The deduplication key `(function.name, function.class_name,
function.start_line)` of src/function_aware_diff.py lines 105 and 143. -/
def funcKey (f : PythonFunction) : String × Option String × Nat :=
  (f.name, f.class_name, f.start_line)

/-- The body of one iteration of the `for function in functions` loop of
`_map_hunks_to_functions` (src/function_aware_diff.py lines 109-133): the
span of the function is intersected with the three global sets; `none` when
the union of the intersections is empty, otherwise the emitted
`FunctionChange` with the classified change type and the sorted union. -/
def functionOverlapChange (all_added all_removed all_modified : List Nat)
    (file_content : String) (function : PythonFunction) : Option FunctionChange :=
  let function_lines :=
    List.range' function.start_line (function.end_line + 1 - function.start_line)
  let added_in_function := function_lines.filter (fun x => x ∈ all_added)
  let removed_in_function := function_lines.filter (fun x => x ∈ all_removed)
  let modified_in_function := function_lines.filter (fun x => x ∈ all_modified)
  let all_affected_lines := (added_in_function ∪ removed_in_function) ∪ modified_in_function
  if all_affected_lines.isEmpty then none
  else
    some { function := function,
           change_type :=
             _determine_change_type_advanced function added_in_function removed_in_function
               modified_in_function file_content,
           affected_lines := List.insertionSort (· ≤ ·) all_affected_lines }

/-- The `for function in functions` loop of `_map_hunks_to_functions`
(src/function_aware_diff.py lines 103-136), with the emitted changes and the
`processed_functions` set as explicit state; a function is marked processed
exactly when a change is emitted for it. -/
def primaryLoop (all_added all_removed all_modified : List Nat) (file_content : String) :
    List PythonFunction → List (String × Option String × Nat) →
      List FunctionChange × List (String × Option String × Nat)
  | [], processed => ([], processed)
  | function :: rest, processed =>
    if funcKey function ∈ processed then
      primaryLoop all_added all_removed all_modified file_content rest processed
    else
      match functionOverlapChange all_added all_removed all_modified file_content function with
      | none => primaryLoop all_added all_removed all_modified file_content rest processed
      | some function_change =>
        let next :=
          primaryLoop all_added all_removed all_modified file_content rest
            (processed.insert (funcKey function))
        (function_change :: next.1, next.2)

/-- The `for new_func in new_functions` loop of the added-function fallback
(src/function_aware_diff.py lines 142-151). -/
def fallbackLoopInner :
    List PythonFunction → List (String × Option String × Nat) →
      List FunctionChange × List (String × Option String × Nat)
  | [], processed => ([], processed)
  | new_func :: rest, processed =>
    if funcKey new_func ∈ processed then fallbackLoopInner rest processed
    else
      let function_change : FunctionChange :=
        { function := new_func,
          change_type := "added",
          affected_lines :=
            List.range' new_func.start_line (new_func.end_line + 1 - new_func.start_line) }
      let next := fallbackLoopInner rest (processed.insert (funcKey new_func))
      (function_change :: next.1, next.2)

/-- The `for hunk in hunks` loop of the added-function fallback
(src/function_aware_diff.py lines 140-151). -/
def fallbackLoop (functions : List PythonFunction) :
    List DiffHunk → List (String × Option String × Nat) →
      List FunctionChange × List (String × Option String × Nat)
  | [], processed => ([], processed)
  | hunk :: rest, processed =>
    let this := fallbackLoopInner (_detect_new_functions_in_hunk hunk functions) processed
    let next := fallbackLoop functions rest this.2
    (this.1 ++ next.1, next.2)

/-- `_map_hunks_to_functions` (src/function_aware_diff.py lines 87-153):
primary span correlation followed by the added-function fallback, sharing
one `processed_functions` set. -/
def _map_hunks_to_functions (hunks : List DiffHunk) (functions : List PythonFunction)
    (file_content : String) : List FunctionChange :=
  let sets := allChangedLines hunks
  let primary := primaryLoop sets.1 sets.2.1 sets.2.2 file_content functions []
  let fallback := fallbackLoop functions hunks primary.2
  primary.1 ++ fallback.1

/-! ## Auxiliary definitions used by the claims -/

/-- The new line numbers the primary walk records as added, in walk order:
an instrumented restatement of the added component of `extractWalk` used to
compare the two line-tracking walks (claim C10). -/
def extractAddedList : List String → Nat → List Nat
  | [], _ => []
  | line :: rest, current_new_line =>
    if pyStartsWith line "+" then current_new_line :: extractAddedList rest (current_new_line + 1)
    else if pyStartsWith line "-" then extractAddedList rest current_new_line
    else if pyStartsWith line " " then extractAddedList rest (current_new_line + 1)
    else extractAddedList rest (current_new_line + 1)

/-- CPython guarantees on the line numbers of a parsed AST: every node has
`lineno ≤ end_lineno` when the latter is present, and child statements start
at or after the line of their parent.  These facts hold of every tree
`ast.parse` returns and are the well-formedness assumption of claim C9. -/
inductive WF : PyNode → Prop where
  | module {body : List PyNode} : (∀ c ∈ body, WF c) → WF (.module body)
  | classDef {n : String} {l : Nat} {e : Option Nat} {body : List PyNode} :
      (∀ x, e = some x → l ≤ x) → (∀ c ∈ body, l ≤ c.lineno) → (∀ c ∈ body, WF c) →
      WF (.classDef n l e body)
  | funcDef {n : String} {a : Bool} {dl : List PyDecorator} {l : Nat} {e : Option Nat}
      {body : List PyNode} :
      (∀ x, e = some x → l ≤ x) → (∀ c ∈ body, l ≤ c.lineno) → (∀ c ∈ body, WF c) →
      WF (.funcDef n a dl l e body)
  | compound {l : Nat} {e : Option Nat} {body : List PyNode} :
      (∀ x, e = some x → l ≤ x) → (∀ c ∈ body, l ≤ c.lineno) → (∀ c ∈ body, WF c) →
      WF (.compound l e body)
  | ret {l : Nat} {e : Option Nat} {hv : Bool} :
      (∀ x, e = some x → l ≤ x) → WF (.ret l e hv)
  | other {l : Nat} {e : Option Nat} {body : List PyNode} :
      (∀ x, e = some x → l ≤ x) → (∀ c ∈ body, l ≤ c.lineno) → (∀ c ∈ body, WF c) →
      WF (.other l e body)

/-! ## Concrete scenario: appending a second one-line function (claim C5)

The new file content is two one-line definitions; the old content is the
first line only.  `git diff` between the two versions emits one hunk whose
header is `@@ -1 +1,2 @@`, with the existing line as a context line, the new
line as an added line, and the trailing empty string that the final newline
of the section produces under `str.split`. -/

def scenario5_source : String :=
  "def add(a,b): return a+b\ndef subtract(a,b): return a-b\n"

/-- The CPython AST of `scenario5_source`, as `ast.parse` returns it: two
top-level function definitions on lines 1 and 2, each with a one-line span
and a return statement with a value. -/
def scenario5_ast : PyNode :=
  .module
    [.funcDef "add" false [] 1 (some 1) [.ret 1 (some 1) true],
     .funcDef "subtract" false [] 2 (some 2) [.ret 2 (some 2) true]]

/-- The abstracted `ast.parse` for this scenario. -/
def scenario5_parse : String → Option PyNode :=
  fun s => if s = scenario5_source then some scenario5_ast else none

def scenario5_diff_lines : List String :=
  ["@@ -1 +1,2 @@", " def add(a,b): return a+b", "+def subtract(a,b): return a-b", ""]

def scenario5_hunks : List DiffHunk := _parse_hunks scenario5_diff_lines

def scenario5_functions : List PythonFunction :=
  detect_functions scenario5_parse scenario5_source

/-- The descriptor the detector produces for `add`. -/
def scenario5_add : PythonFunction :=
  { name := "add", start_line := 1, end_line := 1, start_byte := 0, end_byte := 0 }

/-- The descriptor the detector produces for `subtract`. -/
def scenario5_subtract : PythonFunction :=
  { name := "subtract", start_line := 2, end_line := 2, start_byte := 0, end_byte := 0 }

/-! ## Helper lemmas -/

theorem pyStartsWith_head {l : String} {c : Char}
    (h : pyStartsWith l (String.mk [c]) = true) : ∃ rest, l.data = c :: rest := by
  unfold pyStartsWith at h
  match hl : l.data with
  | [] => rw [hl] at h; simp [List.isPrefixOf] at h
  | d :: rest =>
    rw [hl] at h
    simp [List.isPrefixOf] at h
    exact ⟨rest, by rw [h]⟩

theorem pyStartsWith_single_ne {l : String} {c d : Char} (hcd : d ≠ c)
    (h : pyStartsWith l (String.mk [c]) = true) :
    pyStartsWith l (String.mk [d]) = false := by
  obtain ⟨rest, hl⟩ := pyStartsWith_head h
  unfold pyStartsWith
  rw [hl]
  simp [List.isPrefixOf]
  intro hdc
  exact absurd hdc hcd

theorem sorted_lt_of_sorted_le_nodup {l : List Nat}
    (hs : List.Sorted (· ≤ ·) l) (hn : l.Nodup) : List.Sorted (· < ·) l :=
  (hs.and hn).imp (fun h => lt_of_le_of_ne h.1 h.2)

/-! ## Claim C4 -/

/-- Claim C4: for every input string, if the source fails to parse then
`detect_functions` returns the empty sequence; the operation is a total
function (exceptions of the source are modelled as the `none` result of the
abstracted parser). -/
theorem C4_parse_failure_empty (parse : String → Option PyNode) (file_content : String)
    (h : parse file_content = none) : detect_functions parse file_content = [] := by
  simp [detect_functions, h]

theorem C4_parse_failure_empty_witness :
    detect_functions (fun _ => none) "def f(:" = [] :=
  C4_parse_failure_empty (fun _ => none) "def f(:" rfl

/-! ## Claim C6 -/

theorem parseHunksStep_malformed (state : List DiffHunk × Option DiffHunk) (bad : String)
    (h1 : pyStartsWith bad "@@" = true) (h2 : matchHunkHeader bad = none) :
    parseHunksStep state bad = state := by
  simp [parseHunksStep, h1, h2]

/-- Claim C6: a line beginning with `@@` that does not match the hunk header
pattern yields no hunk; the following content lines are attached to the
previously open hunk when one exists and are discarded otherwise.  Stated as:
parsing with the malformed header line is the same as parsing without it. -/
theorem C6_malformed_header_dropped (pre post : List String) (bad : String)
    (h1 : pyStartsWith bad "@@" = true) (h2 : matchHunkHeader bad = none) :
    _parse_hunks (pre ++ bad :: post) = _parse_hunks (pre ++ post) := by
  unfold _parse_hunks
  rw [List.foldl_append, List.foldl_cons, parseHunksStep_malformed _ bad h1 h2,
    ← List.foldl_append]

theorem C6_malformed_header_dropped_witness :
    _parse_hunks (["@@ -1 +1 @@", " a"] ++ "@@ bad header" :: ["+x"]) =
      _parse_hunks (["@@ -1 +1 @@", " a"] ++ ["+x"]) :=
  C6_malformed_header_dropped ["@@ -1 +1 @@", " a"] ["+x"] "@@ bad header"
    (by decide) (by decide)

/-! ## Claim C1 -/

/-- Claim C1: for a function whose span meets the union of the three sets,
the classifier returns `added` when the start line lies in the added set,
otherwise `deleted` when the span meets the removed set and meets neither
the added nor the context set, otherwise `modified`.  The arguments given to
`_determine_change_type_advanced` are the intersections of the span with the
global sets, exactly as `_map_hunks_to_functions` computes them. -/
theorem C1_change_type_classification (function : PythonFunction)
    (all_added all_removed all_modified : List Nat) (file_content : String)
    (span aIn rIn mIn : List Nat)
    (hspan : span = List.range' function.start_line (function.end_line + 1 - function.start_line))
    (ha : aIn = span.filter (fun x => x ∈ all_added))
    (hr : rIn = span.filter (fun x => x ∈ all_removed))
    (hm : mIn = span.filter (fun x => x ∈ all_modified))
    (hne : (aIn ∪ rIn) ∪ mIn ≠ []) :
    _determine_change_type_advanced function aIn rIn mIn file_content =
      if function.start_line ∈ all_added then "added"
      else if rIn ≠ [] ∧ aIn = [] ∧ mIn = [] then "deleted"
      else "modified" := by
  have hspanne : span ≠ [] := by
    intro hnil
    apply hne
    rw [ha, hr, hm, hnil]
    simp
  have hstart : function.start_line ∈ span := by
    rw [hspan]
    rw [hspan, ne_eq, List.range'_eq_nil] at hspanne
    rw [List.mem_range'_1]
    omega
  have hmem : function.start_line ∈ aIn ↔ function.start_line ∈ all_added := by
    rw [ha, List.mem_filter]
    simp [hstart]
  unfold _determine_change_type_advanced
  by_cases hadd : function.start_line ∈ all_added
  · rw [if_pos (hmem.mpr hadd), if_pos hadd]
  · rw [if_neg (fun hc => hadd (hmem.mp hc)), if_neg hadd]
    by_cases hdel : rIn ≠ [] ∧ aIn = [] ∧ mIn = []
    · rw [if_pos ⟨by simp [hdel.1], by simp [hdel.2.1], by simp [hdel.2.2]⟩, if_pos hdel]
    · rw [if_neg (by simpa [List.isEmpty_iff, and_assoc] using hdel), if_neg hdel]
      by_cases h3 : ¬aIn.isEmpty ∨ ¬rIn.isEmpty
      · rw [if_pos h3]
      · rw [if_neg h3]
        by_cases h4 : ¬mIn.isEmpty
        · rw [if_pos h4]
        · rw [if_neg h4]

theorem C1_change_type_classification_witness :
    _determine_change_type_advanced
        { name := "f", start_line := 1, end_line := 2, start_byte := 0, end_byte := 0 }
        [1] [] [2] "src" =
      if 1 ∈ [1] then "added"
      else if ([] : List Nat) ≠ [] ∧ ([1] : List Nat) = [] ∧ ([2] : List Nat) = [] then "deleted"
      else "modified" :=
  C1_change_type_classification
    { name := "f", start_line := 1, end_line := 2, start_byte := 0, end_byte := 0 }
    [1] [] [2] "src" [1, 2] [1] [] [2] (by decide) (by decide) (by decide) (by decide)
    (by decide)

/-! ## Claim C2 -/

theorem extractWalk_card :
    ∀ (lines : List String) (n o : Nat),
      (∀ l ∈ lines, pyStartsWith l "+" = true ∨ pyStartsWith l "-" = true ∨
        pyStartsWith l " " = true) →
      (∀ x ∈ (extractWalk lines n o).1, n ≤ x) ∧ (∀ x ∈ (extractWalk lines n o).2.2, n ≤ x) ∧
      (extractWalk lines n o).1.length = lines.countP (fun l => pyStartsWith l "+") ∧
      (extractWalk lines n o).2.2.length = lines.countP (fun l => pyStartsWith l " ") := by
  intro lines
  induction lines with
  | nil => intro n o _; simp [extractWalk]
  | cons line rest ih =>
    intro n o hpref
    have hrest := fun n o => ih n o (fun l hl => hpref l (List.mem_cons_of_mem _ hl))
    by_cases h1 : pyStartsWith line "+" = true
    · have hsp : pyStartsWith line " " = false := pyStartsWith_single_ne (by decide) h1
      obtain ⟨hb1, hb2, hc1, hc2⟩ := hrest (n + 1) o
      have hnmem : n ∉ (extractWalk rest (n + 1) o).1 := fun hc => by
        have := hb1 n hc; omega
      refine ⟨?_, ?_, ?_, ?_⟩ <;>
        simp [extractWalk, h1, List.countP_cons, hsp, List.length_insert_of_not_mem hnmem, hc1,
          hc2]
      · intro x hx
        have := hb1 x hx; omega
      · intro x hx
        have := hb2 x hx; omega
    · by_cases h2 : pyStartsWith line "-" = true
      · have hsp : pyStartsWith line " " = false := pyStartsWith_single_ne (by decide) h2
        obtain ⟨hb1, hb2, hc1, hc2⟩ := hrest n (o + 1)
        refine ⟨?_, ?_, ?_, ?_⟩ <;>
          simp [extractWalk, h1, h2, List.countP_cons, hsp, hc1, hc2]
        · intro x hx
          have := hb1 x hx; omega
        · intro x hx
          have := hb2 x hx; omega
      · have h3 : pyStartsWith line " " = true := by
          rcases hpref line (List.mem_cons_self _ _) with h | h | h
          · exact absurd h h1
          · exact absurd h h2
          · exact h
        obtain ⟨hb1, hb2, hc1, hc2⟩ := hrest (n + 1) (o + 1)
        have hnmem : n ∉ (extractWalk rest (n + 1) (o + 1)).2.2 := fun hc => by
          have := hb2 n hc; omega
        refine ⟨?_, ?_, ?_, ?_⟩ <;>
          simp [extractWalk, h1, h2, h3, List.countP_cons,
            List.length_insert_of_not_mem hnmem, hc1, hc2]
        · intro x hx
          have := hb1 x hx; omega
        · intro x hx
          have := hb2 x hx; omega

/-- Claim C2: for a well-formed hunk (every raw line prefixed with one of
the three markers, with counts consistent with the header), the number of
lines the walk records as added plus the number it records as context,
walking new line numbers from `new_start`, equals `new_count`. -/
theorem C2_line_count_invariant (hunk : DiffHunk)
    (hpref : ∀ l ∈ hunk.lines, pyStartsWith l "+" = true ∨ pyStartsWith l "-" = true ∨
      pyStartsWith l " " = true)
    (hnew : hunk.lines.countP (fun l => pyStartsWith l "+") +
      hunk.lines.countP (fun l => pyStartsWith l " ") = hunk.new_count)
    (hold : hunk.lines.countP (fun l => pyStartsWith l "-") +
      hunk.lines.countP (fun l => pyStartsWith l " ") = hunk.old_count) :
    (_extract_changed_lines_detailed hunk).1.length +
      (_extract_changed_lines_detailed hunk).2.2.length = hunk.new_count := by
  obtain ⟨-, -, hc1, hc2⟩ := extractWalk_card hunk.lines hunk.new_start hunk.old_start hpref
  unfold _extract_changed_lines_detailed
  rw [hc1, hc2, hnew]

theorem C2_line_count_invariant_witness :
    (_extract_changed_lines_detailed ⟨1, 1, 1, 2, [" a", "+b"]⟩).1.length +
      (_extract_changed_lines_detailed ⟨1, 1, 1, 2, [" a", "+b"]⟩).2.2.length =
      (⟨1, 1, 1, 2, [" a", "+b"]⟩ : DiffHunk).new_count :=
  C2_line_count_invariant ⟨1, 1, 1, 2, [" a", "+b"]⟩ (by decide) (by decide) (by decide)

/-! ## Claim C10 -/

theorem extractAddedList_mem :
    ∀ (lines : List String) (n o x : Nat),
      x ∈ extractAddedList lines n ↔ x ∈ (extractWalk lines n o).1 := by
  intro lines
  induction lines with
  | nil => intro n o x; simp [extractAddedList, extractWalk]
  | cons line rest ih =>
    intro n o x
    by_cases h1 : pyStartsWith line "+" = true
    · simp [extractAddedList, extractWalk, h1, List.mem_insert_iff, ih _ o]
    · by_cases h2 : pyStartsWith line "-" = true
      · simp [extractAddedList, extractWalk, h1, h2, ih _ (o + 1)]
      · by_cases h3 : pyStartsWith line " " = true
        · simp [extractAddedList, extractWalk, h1, h2, h3, ih _ (o + 1)]
        · simp [extractAddedList, extractWalk, h1, h2, h3, ih _ (o + 1)]

theorem addedContentWalk_fst :
    ∀ (lines : List String) (n : Nat),
      (∀ l ∈ lines, pyStartsWith l "+" = true ∨ pyStartsWith l "-" = true ∨
        pyStartsWith l " " = true) →
      (addedContentWalk lines n).map Prod.fst = extractAddedList lines n := by
  intro lines
  induction lines with
  | nil => intro n _; simp [addedContentWalk, extractAddedList]
  | cons line rest ih =>
    intro n hpref
    have hrest := fun n => ih n (fun l hl => hpref l (List.mem_cons_of_mem _ hl))
    by_cases h1 : pyStartsWith line "+" = true
    · simp [addedContentWalk, extractAddedList, h1, hrest]
    · by_cases h2 : pyStartsWith line "-" = true
      · have hsp : pyStartsWith line " " = false := pyStartsWith_single_ne (by decide) h2
        simp [addedContentWalk, extractAddedList, h1, h2, hsp, hrest]
      · have h3 : pyStartsWith line " " = true := by
          rcases hpref line (List.mem_cons_self _ _) with h | h | h
          · exact absurd h h1
          · exact absurd h h2
          · exact h
        simp [addedContentWalk, extractAddedList, h1, h2, h3, hrest]

/-- Claim C10: for a hunk in which every raw line carries one of the three
markers, the new line number the fallback scan `addedContentWalk` assigns to
each added line agrees, added line by added line, with the new line numbers
the primary walk records as added: the ordered lists coincide, and the set of
recorded added lines equals the added component of
`_extract_changed_lines_detailed`. -/
theorem C10_line_walks_agree (hunk : DiffHunk)
    (hpref : ∀ l ∈ hunk.lines, pyStartsWith l "+" = true ∨ pyStartsWith l "-" = true ∨
      pyStartsWith l " " = true) :
    (addedContentWalk hunk.lines hunk.new_start).map Prod.fst =
      extractAddedList hunk.lines hunk.new_start ∧
    ∀ x, x ∈ extractAddedList hunk.lines hunk.new_start ↔
      x ∈ (_extract_changed_lines_detailed hunk).1 :=
  ⟨addedContentWalk_fst hunk.lines hunk.new_start hpref,
   fun x => extractAddedList_mem hunk.lines hunk.new_start hunk.old_start x⟩

theorem C10_line_walks_agree_witness :
    (addedContentWalk ([" a", "+b", "-c", "+d"] : List String) 4).map Prod.fst =
      extractAddedList [" a", "+b", "-c", "+d"] 4 ∧
    ∀ x, x ∈ extractAddedList [" a", "+b", "-c", "+d"] 4 ↔
      x ∈ (_extract_changed_lines_detailed ⟨7, 3, 4, 3, [" a", "+b", "-c", "+d"]⟩).1 :=
  C10_line_walks_agree ⟨7, 3, 4, 3, [" a", "+b", "-c", "+d"]⟩ (by decide)

/-! ## Claim C3 -/

theorem insertionSort_ne_nil {l : List Nat} (h : l ≠ []) :
    List.insertionSort (· ≤ ·) l ≠ [] := by
  intro h0
  apply h
  have hp := List.perm_insertionSort (· ≤ ·) l
  rw [h0] at hp
  exact hp.symm.eq_nil

theorem mem_insertionSort_le {l : List Nat} {x : Nat} :
    x ∈ List.insertionSort (· ≤ ·) l ↔ x ∈ l :=
  (List.perm_insertionSort _ l).mem_iff

theorem insertionSort_sorted_lt {l : List Nat} (h : l.Nodup) :
    List.Sorted (· < ·) (List.insertionSort (· ≤ ·) l) :=
  sorted_lt_of_sorted_le_nodup (List.sorted_insertionSort _ l)
    ((List.perm_insertionSort (· ≤ ·) l).nodup_iff.mpr h)

theorem functionOverlapChange_affected (A R M : List Nat) (content : String)
    (function : PythonFunction) (fc : FunctionChange)
    (h : functionOverlapChange A R M content function = some fc) :
    fc.function = function ∧ fc.affected_lines ≠ [] ∧
      List.Sorted (· < ·) fc.affected_lines ∧
      ∀ x ∈ fc.affected_lines, function.start_line ≤ x ∧ x ≤ function.end_line := by
  simp only [functionOverlapChange] at h
  split at h
  · exact absurd h (by simp)
  · rename_i hemp
    rw [Option.some_inj] at h
    subst h
    have hnodup :
        (((List.range' function.start_line
              (function.end_line + 1 - function.start_line)).filter (fun x => x ∈ A) ∪
            (List.range' function.start_line
              (function.end_line + 1 - function.start_line)).filter (fun x => x ∈ R)) ∪
          (List.range' function.start_line
            (function.end_line + 1 - function.start_line)).filter (fun x => x ∈ M)).Nodup :=
      List.Nodup.union _ (List.Nodup.filter _ (List.nodup_range' _ _))
    refine ⟨rfl, ?_, ?_, ?_⟩
    · exact insertionSort_ne_nil (by simpa [List.isEmpty_iff] using hemp)
    · exact insertionSort_sorted_lt hnodup
    · intro x hx
      rw [mem_insertionSort_le] at hx
      have hsp : x ∈ List.range' function.start_line
          (function.end_line + 1 - function.start_line) := by
        rcases List.mem_union_iff.mp hx with hx | hx
        · rcases List.mem_union_iff.mp hx with hx | hx <;> exact (List.mem_filter.mp hx).1
        · exact (List.mem_filter.mp hx).1
      rw [List.mem_range'_1] at hsp
      omega

theorem primaryLoop_affected (A R M : List Nat) (content : String) :
    ∀ (fs : List PythonFunction) (processed : List (String × Option String × Nat))
      (fc : FunctionChange), fc ∈ (primaryLoop A R M content fs processed).1 →
      fc.affected_lines ≠ [] ∧ List.Sorted (· < ·) fc.affected_lines ∧
        ∀ x ∈ fc.affected_lines, fc.function.start_line ≤ x ∧ x ≤ fc.function.end_line := by
  intro fs
  induction fs with
  | nil => intro processed fc hfc; simp [primaryLoop] at hfc
  | cons function rest ih =>
    intro processed fc hfc
    simp only [primaryLoop] at hfc
    by_cases hkey : funcKey function ∈ processed
    · rw [if_pos hkey] at hfc
      exact ih processed fc hfc
    · rw [if_neg hkey] at hfc
      cases hov : functionOverlapChange A R M content function with
      | none =>
        rw [hov] at hfc
        exact ih processed fc hfc
      | some function_change =>
        rw [hov] at hfc
        simp only at hfc
        rcases List.mem_cons.mp hfc with rfl | hfc
        · obtain ⟨hfun, h1, h2, h3⟩ :=
            functionOverlapChange_affected A R M content function fc hov
          exact ⟨h1, h2, by rw [hfun]; exact h3⟩
        · exact ih _ fc hfc

theorem detect_new_end_line (hunk : DiffHunk) (existing : List PythonFunction) :
    ∀ f ∈ _detect_new_functions_in_hunk hunk existing,
      f.end_line = f.start_line + 3 := by
  intro f hf
  rw [_detect_new_functions_in_hunk, List.mem_filterMap] at hf
  obtain ⟨p, hp, hsome⟩ := hf
  simp only at hsome
  split at hsome
  · split at hsome
    · exact absurd hsome (by simp)
    · rw [Option.some_inj] at hsome
      subst hsome
      rfl
  · exact absurd hsome (by simp)

theorem fallbackLoopInner_affected :
    ∀ (lst : List PythonFunction) (processed : List (String × Option String × Nat)),
      (∀ f ∈ lst, f.end_line = f.start_line + 3) →
      ∀ fc ∈ (fallbackLoopInner lst processed).1,
        fc.affected_lines ≠ [] ∧ List.Sorted (· < ·) fc.affected_lines ∧
          ∀ x ∈ fc.affected_lines, fc.function.start_line ≤ x ∧ x ≤ fc.function.end_line := by
  intro lst
  induction lst with
  | nil => intro processed _ fc hfc; simp [fallbackLoopInner] at hfc
  | cons nf rest ih =>
    intro processed hend fc hfc
    simp only [fallbackLoopInner] at hfc
    by_cases hkey : funcKey nf ∈ processed
    · rw [if_pos hkey] at hfc
      exact ih processed (fun f hf => hend f (List.mem_cons_of_mem _ hf)) fc hfc
    · rw [if_neg hkey] at hfc
      simp only at hfc
      rcases List.mem_cons.mp hfc with rfl | hfc
      · have h3 := hend nf (List.mem_cons_self _ _)
        refine ⟨?_, ?_, ?_⟩
        · show List.range' nf.start_line (nf.end_line + 1 - nf.start_line) ≠ []
          rw [ne_eq, List.range'_eq_nil]
          omega
        · exact List.pairwise_lt_range' _ _
        · intro x hx
          change x ∈ List.range' nf.start_line (nf.end_line + 1 - nf.start_line) at hx
          rw [List.mem_range'_1] at hx
          change nf.start_line ≤ x ∧ x ≤ nf.end_line
          omega
      · exact ih _ (fun f hf => hend f (List.mem_cons_of_mem _ hf)) fc hfc

theorem fallbackLoop_affected (functions : List PythonFunction) :
    ∀ (hunks : List DiffHunk) (processed : List (String × Option String × Nat)),
      ∀ fc ∈ (fallbackLoop functions hunks processed).1,
        fc.affected_lines ≠ [] ∧ List.Sorted (· < ·) fc.affected_lines ∧
          ∀ x ∈ fc.affected_lines, fc.function.start_line ≤ x ∧ x ≤ fc.function.end_line := by
  intro hunks
  induction hunks with
  | nil => intro processed fc hfc; simp [fallbackLoop] at hfc
  | cons hunk rest ih =>
    intro processed fc hfc
    simp only [fallbackLoop] at hfc
    rcases List.mem_append.mp hfc with h | h
    · exact fallbackLoopInner_affected _ processed (detect_new_end_line hunk functions) fc h
    · exact ih _ fc h

/-- Claim C3: every emitted `FunctionChange`, from the primary
span-correlation path or from the added-function fallback, has a non-empty
`affected_lines` list, sorted strictly ascending (hence without duplicates),
and every element lies within the inclusive span of its function. -/
theorem C3_affected_lines_invariant (hunks : List DiffHunk) (functions : List PythonFunction)
    (file_content : String) :
    ∀ fc ∈ _map_hunks_to_functions hunks functions file_content,
      fc.affected_lines ≠ [] ∧ List.Sorted (· < ·) fc.affected_lines ∧
        fc.affected_lines.Nodup ∧
        ∀ x ∈ fc.affected_lines, fc.function.start_line ≤ x ∧ x ≤ fc.function.end_line := by
  intro fc hfc
  simp only [_map_hunks_to_functions] at hfc
  rcases List.mem_append.mp hfc with h | h
  · obtain ⟨h1, h2, h3⟩ := primaryLoop_affected _ _ _ _ _ _ fc h
    exact ⟨h1, h2, h2.nodup, h3⟩
  · obtain ⟨h1, h2, h3⟩ := fallbackLoop_affected _ _ _ fc h
    exact ⟨h1, h2, h2.nodup, h3⟩

theorem C3_affected_lines_invariant_witness :
    (⟨scenario5_add, "modified", [1]⟩ : FunctionChange).affected_lines ≠ [] ∧
      List.Sorted (· < ·) (⟨scenario5_add, "modified", [1]⟩ : FunctionChange).affected_lines ∧
      (⟨scenario5_add, "modified", [1]⟩ : FunctionChange).affected_lines.Nodup ∧
      ∀ x ∈ (⟨scenario5_add, "modified", [1]⟩ : FunctionChange).affected_lines,
        (⟨scenario5_add, "modified", [1]⟩ : FunctionChange).function.start_line ≤ x ∧
          x ≤ (⟨scenario5_add, "modified", [1]⟩ : FunctionChange).function.end_line :=
  C3_affected_lines_invariant scenario5_hunks [scenario5_add, scenario5_subtract]
    scenario5_source ⟨scenario5_add, "modified", [1]⟩ (by decide)

/-! ## Claim C8 -/

theorem primaryLoop_keys (A R M : List Nat) (content : String) :
    ∀ (fs : List PythonFunction) (processed : List (String × Option String × Nat)),
      (∀ k ∈ processed, k ∈ (primaryLoop A R M content fs processed).2) ∧
      (∀ fc ∈ (primaryLoop A R M content fs processed).1,
        funcKey fc.function ∉ processed ∧
          funcKey fc.function ∈ (primaryLoop A R M content fs processed).2) ∧
      List.Pairwise (fun a b => funcKey a.function ≠ funcKey b.function)
        (primaryLoop A R M content fs processed).1 := by
  intro fs
  induction fs with
  | nil => intro processed; simp [primaryLoop]
  | cons function rest ih =>
    intro processed
    by_cases hkey : funcKey function ∈ processed
    · simpa only [primaryLoop, if_pos hkey] using ih processed
    · cases hov : functionOverlapChange A R M content function with
      | none => simpa only [primaryLoop, if_neg hkey, hov] using ih processed
      | some function_change =>
        obtain ⟨ihmono, ihmem, ihpw⟩ := ih (processed.insert (funcKey function))
        have hfun : function_change.function = function :=
          (functionOverlapChange_affected A R M content function function_change hov).1
        refine ⟨?_, ?_, ?_⟩ <;> simp only [primaryLoop, if_neg hkey, hov]
        · intro k hk
          exact ihmono k (List.mem_insert_iff.mpr (Or.inr hk))
        · intro fc hfc
          rcases List.mem_cons.mp hfc with rfl | hfc
          · rw [hfun]
            exact ⟨hkey, ihmono _ (List.mem_insert_iff.mpr (Or.inl rfl))⟩
          · obtain ⟨h1, h2⟩ := ihmem fc hfc
            exact ⟨fun hc => h1 (List.mem_insert_iff.mpr (Or.inr hc)), h2⟩
        · refine List.Pairwise.cons ?_ ihpw
          intro b hb
          rw [hfun]
          intro he
          apply (ihmem b hb).1
          rw [← he]
          exact List.mem_insert_iff.mpr (Or.inl rfl)

theorem fallbackLoopInner_keys :
    ∀ (lst : List PythonFunction) (processed : List (String × Option String × Nat)),
      (∀ k ∈ processed, k ∈ (fallbackLoopInner lst processed).2) ∧
      (∀ fc ∈ (fallbackLoopInner lst processed).1,
        funcKey fc.function ∉ processed ∧
          funcKey fc.function ∈ (fallbackLoopInner lst processed).2) ∧
      List.Pairwise (fun a b => funcKey a.function ≠ funcKey b.function)
        (fallbackLoopInner lst processed).1 := by
  intro lst
  induction lst with
  | nil => intro processed; simp [fallbackLoopInner]
  | cons nf rest ih =>
    intro processed
    by_cases hkey : funcKey nf ∈ processed
    · simpa only [fallbackLoopInner, if_pos hkey] using ih processed
    · obtain ⟨ihmono, ihmem, ihpw⟩ := ih (processed.insert (funcKey nf))
      refine ⟨?_, ?_, ?_⟩ <;> simp only [fallbackLoopInner, if_neg hkey]
      · intro k hk
        exact ihmono k (List.mem_insert_iff.mpr (Or.inr hk))
      · intro fc hfc
        rcases List.mem_cons.mp hfc with rfl | hfc
        · exact ⟨hkey, ihmono _ (List.mem_insert_iff.mpr (Or.inl rfl))⟩
        · obtain ⟨h1, h2⟩ := ihmem fc hfc
          exact ⟨fun hc => h1 (List.mem_insert_iff.mpr (Or.inr hc)), h2⟩
      · refine List.Pairwise.cons ?_ ihpw
        intro b hb
        intro he
        apply (ihmem b hb).1
        rw [← he]
        exact List.mem_insert_iff.mpr (Or.inl rfl)

theorem fallbackLoop_keys (functions : List PythonFunction) :
    ∀ (hunks : List DiffHunk) (processed : List (String × Option String × Nat)),
      (∀ k ∈ processed, k ∈ (fallbackLoop functions hunks processed).2) ∧
      (∀ fc ∈ (fallbackLoop functions hunks processed).1,
        funcKey fc.function ∉ processed ∧
          funcKey fc.function ∈ (fallbackLoop functions hunks processed).2) ∧
      List.Pairwise (fun a b => funcKey a.function ≠ funcKey b.function)
        (fallbackLoop functions hunks processed).1 := by
  intro hunks
  induction hunks with
  | nil => intro processed; simp [fallbackLoop]
  | cons hunk rest ih =>
    intro processed
    obtain ⟨imono, imem, ipw⟩ :=
      fallbackLoopInner_keys (_detect_new_functions_in_hunk hunk functions) processed
    obtain ⟨rmono, rmem, rpw⟩ :=
      ih (fallbackLoopInner (_detect_new_functions_in_hunk hunk functions) processed).2
    refine ⟨?_, ?_, ?_⟩ <;> simp only [fallbackLoop]
    · intro k hk
      exact rmono k (imono k hk)
    · intro fc hfc
      rcases List.mem_append.mp hfc with h | h
      · obtain ⟨h1, h2⟩ := imem fc h
        exact ⟨h1, rmono _ h2⟩
      · obtain ⟨h1, h2⟩ := rmem fc h
        exact ⟨fun hc => h1 (imono _ hc), h2⟩
    · rw [List.pairwise_append]
      refine ⟨ipw, rpw, ?_⟩
      intro a ha b hb he
      apply (rmem b hb).1
      rw [← he]
      exact (imem a ha).2

/-- Claim C8: no two `FunctionChange` records emitted for one file share the
same `(name, class_name, start_line)` key, counting both the primary
correlation path and the added-function fallback. -/
theorem C8_no_double_report (hunks : List DiffHunk) (functions : List PythonFunction)
    (file_content : String) :
    List.Pairwise (fun a b => funcKey a.function ≠ funcKey b.function)
      (_map_hunks_to_functions hunks functions file_content) := by
  simp only [_map_hunks_to_functions]
  rw [List.pairwise_append]
  obtain ⟨pmono, pmem, ppw⟩ :=
    primaryLoop_keys (allChangedLines hunks).1 (allChangedLines hunks).2.1
      (allChangedLines hunks).2.2 file_content functions []
  obtain ⟨fmono, fmem, fpw⟩ :=
    fallbackLoop_keys functions hunks
      (primaryLoop (allChangedLines hunks).1 (allChangedLines hunks).2.1
        (allChangedLines hunks).2.2 file_content functions []).2
  refine ⟨ppw, fpw, ?_⟩
  intro a ha b hb he
  apply (fmem b hb).1
  rw [← he]
  exact (pmem a ha).2

/-! ## Claim C5 -/

theorem scenario5_functions_eval :
    scenario5_functions = [scenario5_add, scenario5_subtract] := by
  have h : _traverse_node scenario5_source scenario5_ast none false =
      [scenario5_add, scenario5_subtract] := by
    simp [scenario5_ast, _traverse_node, traverseChildren, _extract_function_info,
      _calculate_end_line, PyNode.lineno, scenario5_add, scenario5_subtract]
  have hp : scenario5_parse scenario5_source = some scenario5_ast := by
    simp [scenario5_parse]
  rw [scenario5_functions, detect_functions, hp]
  show detect_ast scenario5_ast scenario5_source = _
  rw [detect_ast, h]
  decide

/-- Claim C5 as stated is false on the code.  With the unified diff `git
diff` produces for appending the second line — one context line for the
existing `add` line and one added line — the context line overlaps the span
of `add`, so the combiner emits a `FunctionChange` for `add` as well: the
detector does return exactly 2 functions, but the combiner output does not
consist of one single `FunctionChange` avoiding `add`. -/
theorem C5_counterexample :
    scenario5_functions.length = 2 ∧
      ¬((_map_hunks_to_functions scenario5_hunks scenario5_functions
            scenario5_source).length = 1 ∧
        ∀ fc ∈ _map_hunks_to_functions scenario5_hunks scenario5_functions scenario5_source,
          fc.function.name ≠ "add") := by
  rw [scenario5_functions_eval]
  decide

/-- Claim C5 amended: for the new file content of the scenario and the
standard unified diff of the append, the detector returns exactly 2
functions and the combiner reports exactly two `FunctionChange` records:
change_type `added` for `subtract`, and change_type `modified` for `add`,
whose single line appears as a context line of the hunk. -/
theorem C5_scenario_append :
    scenario5_functions.length = 2 ∧
      _map_hunks_to_functions scenario5_hunks scenario5_functions scenario5_source =
        [⟨scenario5_add, "modified", [1]⟩, ⟨scenario5_subtract, "added", [2]⟩] := by
  rw [scenario5_functions_eval]
  decide

/-! ## Claim C7 -/

theorem traverseChildren_eq_flatMap (source : String) (body : List PyNode)
    (class_name : Option String) (inside_function : Bool) :
    traverseChildren source body class_name inside_function =
      body.flatMap (fun c => _traverse_node source c class_name inside_function) := by
  induction body with
  | nil => simp [traverseChildren]
  | cons c cs ih => simp [traverseChildren, ih]

theorem extract_class_name {source : String} {cn : Option String} {d : PythonFunction} :
    ∀ {node : PyNode}, _extract_function_info node source cn = some d →
      d.class_name = cn := by
  intro node h
  cases node with
  | funcDef n a dl l e b =>
    simp only [_extract_function_info, Option.some_inj] at h
    rw [← h]
  | module b => simp [_extract_function_info] at h
  | classDef nm l e b => simp [_extract_function_info] at h
  | compound l e b => simp [_extract_function_info] at h
  | ret l e hv => simp [_extract_function_info] at h
  | other l e b => simp [_extract_function_info] at h

theorem mem_traverse_of_extract {source : String} {cn : Option String} {ins : Bool}
    {node : PyNode} {d : PythonFunction}
    (hex : _extract_function_info node source cn = some d) :
    d ∈ _traverse_node source node cn ins := by
  cases node with
  | funcDef n a dl l e b => simp [_traverse_node, hex]
  | module b => simp [_extract_function_info] at hex
  | classDef nm l e b => simp [_extract_function_info] at hex
  | compound l e b => simp [_extract_function_info] at hex
  | ret l e hv => simp [_extract_function_info] at hex
  | other l e b => simp [_extract_function_info] at hex

theorem mem_traverseChildren {source : String} {body : List PyNode} {cn : Option String}
    {ins : Bool} {node : PyNode} {d : PythonFunction}
    (hmem : node ∈ body) (hd : d ∈ _traverse_node source node cn ins) :
    d ∈ traverseChildren source body cn ins := by
  rw [traverseChildren_eq_flatMap, List.mem_flatMap]
  exact ⟨node, hmem, hd⟩

/-- Claim C7: ownership rules of the traversal, for every surrounding
context.  (1) A function definition that is a direct child of a class body
is recorded with that class as owner.  (2) A function nested directly inside
another function is recorded with owner `None`, also when the enclosing
function is itself a method (arbitrary incoming context).  (3) A direct
method of a class that is itself nested inside a function is recorded with
that nested class as its owner. -/
theorem C7_owner_rules (source : String) :
    (∀ (c : String) (cl : Nat) (ce : Option Nat) (body : List PyNode)
       (ctx : Option String) (ins : Bool) (node : PyNode) (d : PythonFunction),
       node ∈ body → _extract_function_info node source (some c) = some d →
       d ∈ _traverse_node source (.classDef c cl ce body) ctx ins ∧
         d.class_name = some c) ∧
    (∀ (g : String) (ga : Bool) (gdl : List PyDecorator) (gl : Nat) (ge : Option Nat)
       (fbody : List PyNode) (ctx : Option String) (ins : Bool) (node : PyNode)
       (d : PythonFunction),
       node ∈ fbody → _extract_function_info node source none = some d →
       d ∈ _traverse_node source (.funcDef g ga gdl gl ge fbody) ctx ins ∧
         d.class_name = none) ∧
    (∀ (g c2 : String) (ga : Bool) (gdl : List PyDecorator) (gl : Nat) (ge : Option Nat)
       (fbody : List PyNode) (c2l : Nat) (c2e : Option Nat) (cbody : List PyNode)
       (ctx : Option String) (ins : Bool) (node : PyNode) (d : PythonFunction),
       (.classDef c2 c2l c2e cbody) ∈ fbody → node ∈ cbody →
       _extract_function_info node source (some c2) = some d →
       d ∈ _traverse_node source (.funcDef g ga gdl gl ge fbody) ctx ins ∧
         d.class_name = some c2) := by
  refine ⟨?_, ?_, ?_⟩
  · intro c cl ce body ctx ins node d hmem hex
    refine ⟨?_, extract_class_name hex⟩
    show d ∈ traverseChildren source body (some c) ins
    exact mem_traverseChildren hmem (mem_traverse_of_extract hex)
  · intro g ga gdl gl ge fbody ctx ins node d hmem hex
    refine ⟨?_, extract_class_name hex⟩
    simp only [_traverse_node]
    rw [List.mem_append]
    exact Or.inr (mem_traverseChildren hmem (mem_traverse_of_extract hex))
  · intro g c2 ga gdl gl ge fbody c2l c2e cbody ctx ins node d hmem1 hmem2 hex
    refine ⟨?_, extract_class_name hex⟩
    simp only [_traverse_node]
    rw [List.mem_append]
    refine Or.inr (mem_traverseChildren hmem1 ?_)
    show d ∈ traverseChildren source cbody (some c2) true
    exact mem_traverseChildren hmem2 (mem_traverse_of_extract hex)

theorem C7_owner_rules_witness :
    ({ name := "m", start_line := 2, end_line := 3, start_byte := 0, end_byte := 0,
       class_name := some "C", is_method := true, is_async := false,
       decorator_names := [] } : PythonFunction) ∈
        _traverse_node "s"
          (.classDef "C" 1 (some 3) [.funcDef "m" false [] 2 (some 3) []]) none false ∧
      ({ name := "m", start_line := 2, end_line := 3, start_byte := 0, end_byte := 0,
         class_name := some "C", is_method := true, is_async := false,
         decorator_names := [] } : PythonFunction).class_name = some "C" :=
  (C7_owner_rules "s").1 "C" 1 (some 3) [.funcDef "m" false [] 2 (some 3) []] none false
    (.funcDef "m" false [] 2 (some 3) []) _ (by simp) rfl

/-! ## Claim C9 -/

theorem WF_lineno_le_endLineno {c : PyNode} (h : WF c) :
    ∀ x, c.endLineno = some x → c.lineno ≤ x := by
  cases h with
  | module h1 => simp [PyNode.endLineno]
  | classDef h1 h2 h3 => simpa [PyNode.lineno, PyNode.endLineno] using h1
  | funcDef h1 h2 h3 => simpa [PyNode.lineno, PyNode.endLineno] using h1
  | compound h1 h2 h3 => simpa [PyNode.lineno, PyNode.endLineno] using h1
  | ret h1 => simpa [PyNode.lineno, PyNode.endLineno] using h1
  | other h1 h2 h3 => simpa [PyNode.lineno, PyNode.endLineno] using h1

theorem returnScan_ge (source : String) (end_line : Nat) :
    end_line ≤ returnScan source end_line := by
  simp only [returnScan]
  split
  · split
    · rename_i i hf
      have hmem := List.mem_of_find?_eq_some hf
      rw [List.mem_range'_1] at hmem
      omega
    · exact le_refl _
  · exact le_refl _

theorem le_calculate_end_line {n : String} {a : Bool} {dl : List PyDecorator} {l : Nat}
    {e : Option Nat} {body : List PyNode} (source : String)
    (hwf : WF (.funcDef n a dl l e body)) :
    l ≤ _calculate_end_line (.funcDef n a dl l e body) source := by
  cases hwf with
  | funcDef hend hchild hwfc =>
    simp only [_calculate_end_line]
    cases e with
    | some x => exact hend x rfl
    | none =>
      cases hlast : body.getLast? with
      | none => exact le_refl l
      | some last =>
        have hmem : last ∈ body := by
          obtain ⟨hne, heq⟩ := List.mem_getLast?_eq_getLast (Option.mem_def.mpr hlast)
          rw [heq]
          exact List.getLast_mem hne
        have hl1 : l ≤ last.lineno := hchild last hmem
        cases hel : last.endLineno with
        | some x =>
          have h2 := WF_lineno_le_endLineno (hwfc last hmem) x hel
          simp only [hel]
          omega
        | none =>
          simp only [hel]
          cases last with
          | module b => simp [PyNode.lineno] at hl1 ⊢; omega
          | classDef nm ll le b => simp [PyNode.lineno] at hl1 ⊢; omega
          | funcDef nm aa ddl ll le b => simp [PyNode.lineno] at hl1 ⊢; omega
          | compound ll le b => simp [PyNode.lineno] at hl1 ⊢; omega
          | other ll le b => simp [PyNode.lineno] at hl1 ⊢; omega
          | ret ll le hv =>
            cases hv with
            | false => simp [PyNode.lineno] at hl1 ⊢; omega
            | true =>
              have h3 := returnScan_ge source ll
              simp [PyNode.lineno] at hl1 ⊢
              omega

theorem traverse_start_le_end (source : String) :
    ∀ (fuel : Nat) (node : PyNode), sizeOf node ≤ fuel →
      ∀ (class_name : Option String) (inside_function : Bool), WF node →
        ∀ f ∈ _traverse_node source node class_name inside_function,
          f.start_line ≤ f.end_line := by
  intro fuel
  induction fuel with
  | zero =>
    intro node hsz
    exfalso
    cases node <;> simp_all <;> omega
  | succ m ih =>
    intro node hsz class_name inside_function hwf f hf
    cases node with
    | module body =>
      replace hf : f ∈ traverseChildren source body class_name inside_function := hf
      rw [traverseChildren_eq_flatMap, List.mem_flatMap] at hf
      obtain ⟨c, hc, hfc⟩ := hf
      cases hwf with
      | module hwfc =>
        have hszc : sizeOf c ≤ m := by
          have h1 := List.sizeOf_lt_of_mem hc
          have h2 : sizeOf (PyNode.module body) = 1 + sizeOf body := by simp
          omega
        exact ih c hszc class_name inside_function (hwfc c hc) f hfc
    | classDef nm l e body =>
      replace hf : f ∈ traverseChildren source body (some nm) inside_function := hf
      rw [traverseChildren_eq_flatMap, List.mem_flatMap] at hf
      obtain ⟨c, hc, hfc⟩ := hf
      cases hwf with
      | classDef h1 h2 hwfc =>
        have hszc : sizeOf c ≤ m := by
          have hs1 := List.sizeOf_lt_of_mem hc
          have hs2 : sizeOf (PyNode.classDef nm l e body) =
              1 + sizeOf nm + sizeOf l + sizeOf e + sizeOf body := by simp
          omega
        exact ih c hszc (some nm) inside_function (hwfc c hc) f hfc
    | compound l e body =>
      replace hf : f ∈ traverseChildren source body class_name inside_function := hf
      rw [traverseChildren_eq_flatMap, List.mem_flatMap] at hf
      obtain ⟨c, hc, hfc⟩ := hf
      cases hwf with
      | compound h1 h2 hwfc =>
        have hszc : sizeOf c ≤ m := by
          have hs1 := List.sizeOf_lt_of_mem hc
          have hs2 : sizeOf (PyNode.compound l e body) =
              1 + sizeOf l + sizeOf e + sizeOf body := by simp
          omega
        exact ih c hszc class_name inside_function (hwfc c hc) f hfc
    | other l e body =>
      replace hf : f ∈ traverseChildren source body class_name inside_function := hf
      rw [traverseChildren_eq_flatMap, List.mem_flatMap] at hf
      obtain ⟨c, hc, hfc⟩ := hf
      cases hwf with
      | other h1 h2 hwfc =>
        have hszc : sizeOf c ≤ m := by
          have hs1 := List.sizeOf_lt_of_mem hc
          have hs2 : sizeOf (PyNode.other l e body) =
              1 + sizeOf l + sizeOf e + sizeOf body := by simp
          omega
        exact ih c hszc class_name inside_function (hwfc c hc) f hfc
    | ret l e hv => simp [_traverse_node] at hf
    | funcDef nm a dl l e body =>
      simp only [_traverse_node] at hf
      rcases List.mem_append.mp hf with h | h
      · cases hex : _extract_function_info (.funcDef nm a dl l e body) source class_name with
        | none => rw [hex] at h; simp at h
        | some d =>
          rw [hex] at h
          simp at h
          subst h
          have h1 : f.start_line = l := by
            simp only [_extract_function_info, Option.some_inj] at hex
            rw [← hex]
            simp [PyNode.lineno]
          have h2 : f.end_line = _calculate_end_line (.funcDef nm a dl l e body) source := by
            simp only [_extract_function_info, Option.some_inj] at hex
            rw [← hex]
          rw [h1, h2]
          exact le_calculate_end_line source hwf
      · rw [traverseChildren_eq_flatMap, List.mem_flatMap] at h
        obtain ⟨c, hc, hfc⟩ := h
        cases hwf with
        | funcDef hw1 hw2 hwfc =>
          have hszc : sizeOf c ≤ m := by
            have hs1 := List.sizeOf_lt_of_mem hc
            have hs2 : sizeOf (PyNode.funcDef nm a dl l e body) =
                1 + sizeOf nm + sizeOf a + sizeOf dl + sizeOf l + sizeOf e + sizeOf body := by
              simp
            omega
          exact ih c hszc none true (hwfc c hc) f hfc

/-- Claim C9: every descriptor the detector returns satisfies
`start_line ≤ end_line`, across all end-line computation fallbacks, for
every parseable source — parseable meaning the abstracted parser returns a
tree satisfying the CPython line-number guarantees `WF`. -/
theorem C9_start_le_end (parse : String → Option PyNode) (file_content : String)
    (hwf : ∀ t, parse file_content = some t → WF t) :
    ∀ f ∈ detect_functions parse file_content, f.start_line ≤ f.end_line := by
  intro f hf
  rw [detect_functions] at hf
  cases hp : parse file_content with
  | none => rw [hp] at hf; simp at hf
  | some tree =>
    rw [hp] at hf
    replace hf : f ∈ detect_ast tree file_content := hf
    rw [detect_ast] at hf
    rw [(List.perm_insertionSort _ _).mem_iff] at hf
    exact traverse_start_le_end file_content (sizeOf tree) tree (le_refl _) none false
      (hwf tree hp) f hf

theorem C9_start_le_end_witness :
    ({ name := "f", start_line := 1, end_line := 1, start_byte := 0,
       end_byte := 0 } : PythonFunction).start_line ≤
      ({ name := "f", start_line := 1, end_line := 1, start_byte := 0,
         end_byte := 0 } : PythonFunction).end_line :=
  C9_start_le_end (fun _ => some (.module [.funcDef "f" false [] 1 (some 1) []])) "x"
    (by
      intro t ht
      rw [Option.some_inj] at ht
      subst ht
      refine WF.module ?_
      intro c hc
      rw [List.mem_singleton] at hc
      subst hc
      refine WF.funcDef ?_ ?_ ?_
      · intro x hx
        rw [Option.some_inj] at hx
        omega
      · intro c hc
        simp at hc
      · intro c hc
        simp at hc)
    { name := "f", start_line := 1, end_line := 1, start_byte := 0, end_byte := 0 }
    (by
      have h : detect_functions
          (fun _ => some (PyNode.module [.funcDef "f" false [] 1 (some 1) []])) "x" =
          [{ name := "f", start_line := 1, end_line := 1, start_byte := 0,
             end_byte := 0 }] := by
        have ht : _traverse_node "x" (PyNode.module [.funcDef "f" false [] 1 (some 1) []])
            none false =
            [{ name := "f", start_line := 1, end_line := 1, start_byte := 0,
               end_byte := 0 }] := by
          simp [_traverse_node, traverseChildren, _extract_function_info,
            _calculate_end_line, PyNode.lineno]
        rw [detect_functions]
        show detect_ast (PyNode.module [.funcDef "f" false [] 1 (some 1) []]) "x" = _
        rw [detect_ast, ht]
        decide
      rw [h]
      exact List.mem_singleton.mpr rfl)
